import Mathlib

/-!
Benchmark harness of `main.go`: partitioning, workload and final map state.

A shallow embedding of `test(c cache, count int)` from `main.go` together with the
`rwMap` adapter, followed by the theorems settling the specification claims.

Modelling conventions.

* Go `int` is the 64-bit two's-complement integer of the usual targets (amd64, arm64).
  Values are `Int`; every addition that the source performs on a loop variable and that
  can leave the range is wrapped with `wrap`.  Division and remainder are Go's truncating
  `/` and `%`, i.e. `Int.tdiv` and `Int.tmod`.
* The constant `workers` is 100 in the source; the functions below take the worker count
  as a parameter `W` so that the properties can be stated for every `W`.
* Goroutines: every loop iteration of a worker performs exactly one map operation, made
  atomic by the lock of `rwMap`.  A run of the trial is therefore a sequential
  interleaving of the workers' operation sequences, chosen by a schedule.  The dispatch
  loop itself never touches the map, so how its iterations interleave with the workers is
  immaterial and the ranges are computed first.
* Only `rwMap` is embedded; `syncMap` and `cMap` delegate to `sync.Map` and to the
  `concurrent-map` package, whose code is not part of this repository.
* `time.Now`, `time.Since` and `log.Printf` have no effect on the map and are left out;
  the value passed to the log line, `c.len()`, is the `len` field of a `Trial`.
* `rand.Intn(n)` is modelled by an arbitrary raw draw `g` reduced into `[0, n)`; it
  panics (here: `none`) when `n ≤ 0`.
-/

namespace ConcurrentMapTesting

/-! ## Machine integers -/

/-- Largest Go `int` (64 bit). -/
def maxInt : Int := 9223372036854775807

/-- Smallest Go `int` (64 bit). -/
def minInt : Int := -9223372036854775808

/-- Two's-complement wrap-around of a mathematical integer into the 64-bit range. -/
def wrap (x : Int) : Int := (x + 9223372036854775808) % 18446744073709551616 - 9223372036854775808

/-! ## `value`, `rwMap` -/

/-- Go `type value struct{}`. -/
abbrev value := Unit

/-- Go `*value`: `none` is `nil`, `some v` a pointer to `v`. -/
abbrev valuePtr := Option value

/-- Go `&value{}`. -/
def newValue : valuePtr := some ()

/-- Go `rwMap`: the built-in `map[string]*value`, kept as a list of entries with pairwise
distinct keys.  The embedded `sync.RWMutex` makes each method atomic and has no state of
its own between calls. -/
structure rwMap where
  mp : List (String × valuePtr)

/-- Go `make(map[string]*value)`. -/
def rwMap.empty : rwMap := ⟨[]⟩

/-- Go `c.mp[key] = v`: overwrite the entry of `key` or add one. -/
def rwMap.store (c : rwMap) (key : String) (v : valuePtr) : rwMap :=
  ⟨(key, v) :: c.mp.filter (fun e => decide (e.1 ≠ key))⟩

/-- Go `v, ok := m[key]`. -/
def mapIndex : List (String × valuePtr) → String → Option valuePtr
  | [], _ => none
  | (k, v) :: rest, key => if k = key then some v else mapIndex rest key

/-- Go `rwMap.load`: `nil` when the key has no entry, the stored pointer otherwise. -/
def rwMap.load (c : rwMap) (key : String) : valuePtr :=
  match mapIndex c.mp key with
  | none => none
  | some v => v

/-- Go `rwMap.len`: `int64(len(c.mp))`. -/
def rwMap.len (c : rwMap) : Int := (c.mp.length : Int)

/-! ## Key formatting -/

/-- Decimal digits of a natural number, most significant first; `"0"` for zero. -/
def fmtNat (n : Nat) : List Char :=
  if n = 0 then ['0'] else ((Nat.digits 10 n).reverse.map Nat.digitChar)

/-- The verb `%d` applied to an `int`. -/
def fmtInt (i : Int) : List Char :=
  if i < 0 then '-' :: fmtNat i.natAbs else fmtNat i.natAbs

/-- Go `fmt.Sprintf(pattern, i)` with `pattern = "www.site%d.example.com.ua"`. -/
def pattern (i : Int) : String :=
  String.mk ("www.site".data ++ fmtInt i ++ ".example.com.ua".data)

/-! ## Worker body -/

/-- Go `rand.Intn(n)`: panics (`none`) for `n ≤ 0`, otherwise a number of `[0, n)`,
here the raw draw `g` reduced modulo `n`. -/
def Intn (g : Nat) (n : Int) : Option Int :=
  if n ≤ 0 then none else some ((g : Int) % n)

/-- A call made on the shared map: `c.store(site, &value{})` or `c.load(site)`. -/
inductive Op where
  | store (site : String)
  | load (site : String)
  deriving DecidableEq

/-- One iteration of the worker loop at index `i`:
`if i%10 == 0 { c.store(Sprintf(pattern, i), &value{}) } else { c.load(Sprintf(pattern, rand.Intn(i))) }`.
`none` when `rand.Intn` panics. -/
def iteration (g : Nat) (i : Int) : Option Op :=
  if Int.tmod i 10 = 0 then some (Op.store (pattern i))
  else (Intn g i).map (fun r => Op.load (pattern r))

/-- The loop `for i := from; i < to; i++ { ... }` of one worker, with at most `fuel`
iterations; `i + 1` cannot overflow because `i < to`.  `g i` is the raw draw used at
index `i`.  The result is the sequence of map calls, or `none` on a panic. -/
def workerLoop (g : Int → Nat) (to_ : Int) : Nat → Int → Option (List Op)
  | 0, _ => some []
  | fuel + 1, i =>
    if i < to_ then
      match iteration (g i) i with
      | none => none
      | some op =>
        match workerLoop g to_ fuel (i + 1) with
        | none => none
        | some rest => some (op :: rest)
    else some []

/-- The goroutine `func(from, to int)`: its loop needs exactly `to - from` iterations. -/
def worker (g : Int → Nat) (from_ to_ : Int) : Option (List Op) :=
  workerLoop g to_ (to_ - from_).toNat from_

/-! ## Dispatch loop -/

/-- The loop `for i := 0; i < count; i += block { wg.Add(1); go func(from, to){...}(i, i+block) }`
run for at most `fuel` iterations from loop variable `i`.  Returns the `(from, to)` pairs
of the goroutines launched so far, and whether the loop has exited. -/
def dispatchLoop (count block : Int) : Nat → Int → List (Int × Int) × Bool
  | 0, _ => ([], false)
  | fuel + 1, i =>
    if i < count then
      let r := dispatchLoop count block fuel (wrap (i + block))
      ((i, wrap (i + block)) :: r.1, r.2)
    else ([], true)

/-- The goroutines launched by the first `fuel` iterations of the dispatch loop of
`test`, with `block := count / workers`. -/
def launched (W count : Int) (fuel : Nat) : List (Int × Int) :=
  (dispatchLoop count (Int.tdiv count W) fuel 0).1

/-- All goroutines launched by `test`, when the dispatch loop exits within `fuel`
iterations; `none` when it is still running. -/
def dispatch (W count : Int) (fuel : Nat) : Option (List (Int × Int)) :=
  match dispatchLoop count (Int.tdiv count W) fuel 0 with
  | (rs, true) => some rs
  | (_, false) => none

/-- The constant `workers` of the source. -/
def workers : Int := 100

/-- The operation count of `main`: `int(math.Pow10(6))`. -/
def mainCount : Int := 1000000

/-! ## Running the goroutines -/

/-- The operation sequences of the launched goroutines, in launch order; goroutine
number `k` uses the raw draws `g k`.  `none` when one of them panics. -/
def spawn (g : Nat → Int → Nat) : Nat → List (Int × Int) → Option (List (List Op))
  | _, [] => some []
  | k, r :: rs =>
    match worker (g k) r.1 r.2 with
    | none => none
    | some p =>
      match spawn g (k + 1) rs with
      | none => none
      | some ps => some (p :: ps)

/-- A sequential interleaving: the schedule names, step by step, the goroutine whose next
call runs.  `none` when the schedule names a goroutine that has nothing left to run or
stops before every goroutine is done (`wg.Wait()` has not returned). -/
def interleave : List Nat → List (List Op) → Option (List Op)
  | [], ps => if ps.all List.isEmpty then some [] else none
  | k :: sched, ps =>
    match ps.get? k with
    | some (op :: rest) =>
      match interleave sched (ps.set k rest) with
      | none => none
      | some tr => some (op :: tr)
    | _ => none

/-- Effect of one call on the map; the result of `load` is discarded by the worker. -/
def rwMap.apply (c : rwMap) : Op → rwMap
  | Op.store site => c.store site newValue
  | Op.load _ => c

/-- What a completed trial leaves behind. -/
structure Trial where
  ranges : List (Int × Int)
  progs : List (List Op)
  trace : List Op
  final : rwMap
  len : Int

/-- Go `test(c, count)`: dispatch, run the goroutines under the schedule `sched` with raw
draws `g`, wait for all of them and read `c.len()`.  `none` when the dispatch loop does not
exit within `fuel` iterations, when a goroutine panics, or when `sched` is not a complete
schedule of the launched goroutines. -/
def test (W : Int) (c : rwMap) (count : Int) (fuel : Nat) (g : Nat → Int → Nat)
    (sched : List Nat) : Option Trial :=
  match dispatch W count fuel with
  | none => none
  | some rs =>
    match spawn g 0 rs with
    | none => none
    | some ps =>
      match interleave sched ps with
      | none => none
      | some tr =>
        let final := tr.foldl rwMap.apply c
        some ⟨rs, ps, tr, final, final.len⟩

/-- The schedule that runs the goroutines one after the other, in launch order. -/
def seqSchedule : Nat → List (List Op) → List Nat
  | _, [] => []
  | k, p :: ps => List.replicate p.length k ++ seqSchedule (k + 1) ps

/-! ## Auxiliary notions used in the statements -/

/-- The goroutine launched with `(from, to) = r` runs its loop body at index `x`:
`for i := from; i < to; i++`. -/
abbrev handles (r : Int × Int) (x : Int) : Prop := r.1 ≤ x ∧ x < r.2

/-- The consecutive ranges `[i, i+b), [i+b, i+2b), ...`, `n` of them. -/
def blocks (b : Int) : Nat → Int → List (Int × Int)
  | 0, _ => []
  | n + 1, i => (i, i + b) :: blocks b n (i + b)

/-- The end of the last range in exact arithmetic: `N` rounded up to a multiple of
`block = N / W`. -/
def lastEnd (W N : Int) : Int :=
  Int.tdiv (N + Int.tdiv N W - 1) (Int.tdiv N W) * Int.tdiv N W

/-- The number of iterations of the dispatch loop in exact arithmetic:
`ceil(N / block)` with `block = N / W`. -/
def numBlocks (W N : Int) : Nat :=
  (Int.tdiv (N + Int.tdiv N W - 1) (Int.tdiv N W)).toNat

/-- Partition completeness of the dispatch of `test` with `W` workers and `N`
operations: the loop exits, the launched ranges are pairwise disjoint, and every index of
`[0, N)` is handled by exactly one launched goroutine. -/
def PartitionComplete (W N : Int) : Prop :=
  ∃ fuel rs, dispatch W N fuel = some rs ∧
    rs.Pairwise (fun r s => ∀ x, ¬ (handles r x ∧ handles s x)) ∧
    ∀ x, 0 ≤ x → x < N → rs.countP (fun r => decide (handles r x)) = 1

/-- Safety of the random draw: every index handled by a goroutine launched at any point
of the dispatch loop is non-negative, and on the read branch it is at least 1, so that
`rand.Intn` does not panic and returns a number below the index. -/
def DrawSafe (W N : Int) : Prop :=
  ∀ fuel, ∀ r ∈ launched W N fuel, ∀ i, handles r i →
    0 ≤ i ∧ (Int.tmod i 10 ≠ 0 → 1 ≤ i ∧ ∀ g, ∃ d, Intn g i = some d ∧ 0 ≤ d ∧ d < i)

/-- The keys that have an entry in the map. -/
def rwMap.keys (c : rwMap) : List String := c.mp.map Prod.fst

/-- Representation invariant of `rwMap` in a trial: the keys of the entries are pairwise
distinct (it is a map) and every stored pointer is a `&value{}`. -/
def rwMap.Good (c : rwMap) : Prop :=
  c.keys.Nodup ∧ ∀ e ∈ c.mp, e.2 = newValue

/-- The keys of the `store` calls of a sequence of calls, in order. -/
def storeSites : List Op → List String
  | [] => []
  | Op.store site :: rest => site :: storeSites rest
  | Op.load _ :: rest => storeSites rest

/-- The number of `load` calls of a sequence of calls. -/
def loadCount : List Op → Nat
  | [] => 0
  | Op.store _ :: rest => loadCount rest
  | Op.load _ :: rest => loadCount rest + 1

/-- The indices `i, i+1, ..., i+n-1`. -/
def idx : Nat → Int → List Int
  | 0, _ => []
  | n + 1, i => i :: idx n (i + 1)

/-- The call made at a non-negative index `i` by a goroutine with raw draws `g`. -/
def opAt (g : Int → Nat) (i : Int) : Op :=
  if Int.tmod i 10 = 0 then Op.store (pattern i) else Op.load (pattern ((g i : Int) % i))

/-- The call sequences of goroutines number `k, k+1, ...` on `n` consecutive ranges of
width `b` starting at `i`. -/
def progsOf (g : Nat → Int → Nat) (b : Int) : Nat → Nat → Int → List (List Op)
  | _, 0, _ => []
  | k, n + 1, i => (idx b.toNat i).map (opAt (g k)) :: progsOf g b (k + 1) n (i + b)

/-- The keys of the write indices (multiples of 10) among `i, ..., i+n-1`, in order. -/
def writes (n : Nat) (i : Int) : List String :=
  ((idx n i).filter (fun x => decide (Int.tmod x 10 = 0))).map pattern

/-! ## Machine arithmetic -/

theorem wrap_eq_self {x : Int} (h1 : minInt ≤ x) (h2 : x ≤ maxInt) : wrap x = x := by
  unfold wrap
  unfold minInt at h1
  unfold maxInt at h2
  omega

theorem tdiv_eq_div_of_nonneg {N W : Int} (hW : 1 ≤ W) (hN : 0 ≤ N) :
    Int.tdiv N W = N / W :=
  Int.tdiv_eq_ediv hN (by omega)

theorem nonneg_of_tdiv_pos {N W : Int} (hW : 1 ≤ W) (hb : 1 ≤ Int.tdiv N W) : 0 ≤ N := by
  by_contra hneg
  have hN : N = -(-N) := by omega
  rw [hN, Int.neg_tdiv, Int.tdiv_eq_ediv (by omega) (by omega)] at hb
  have : 0 ≤ -N / W := Int.ediv_nonneg (by omega) (by omega)
  omega

/-! ## The dispatch loop in closed form -/

theorem dispatchLoop_blocks (count b : Int) (hb : 0 < b) :
    ∀ (n : Nat) (i : Int) (fuel : Nat), minInt ≤ i → i + n * b ≤ maxInt →
      count ≤ i + n * b → (∀ k : Nat, k < n → i + k * b < count) →
      dispatchLoop count b fuel i = (blocks b (min fuel n) i, decide (n < fuel)) := by
  intro n
  induction n with
  | zero =>
    intro i fuel _ _ hc _
    cases fuel with
    | zero => simp [dispatchLoop, blocks]
    | succ f =>
      have : ¬ i < count := by simpa using hc
      simp [dispatchLoop, blocks, this]
  | succ n ih =>
    intro i fuel hmin hmax hc hk
    cases fuel with
    | zero => simp [dispatchLoop, blocks]
    | succ f =>
      have h0 : i < count := by simpa using hk 0 (Nat.succ_pos n)
      have hnb : (0 : Int) ≤ n * b := Int.mul_nonneg (Int.ofNat_nonneg n) (le_of_lt hb)
      have hcast : ((n + 1 : Nat) : Int) * b = n * b + b := by push_cast; ring
      rw [hcast] at hmax hc
      have hw : wrap (i + b) = i + b := wrap_eq_self (by omega) (by omega)
      have hrec := ih (i + b) f (by omega) (by omega) (by omega) (by
        intro k hkn
        have := hk (k + 1) (Nat.succ_lt_succ hkn)
        have hcast2 : ((k + 1 : Nat) : Int) * b = k * b + b := by push_cast; ring
        rw [hcast2] at this
        omega)
      simp only [dispatchLoop, h0, if_true, hw, hrec, Nat.succ_min_succ, blocks]
      simp

theorem blocks_length (b : Int) : ∀ (n : Nat) (i : Int), (blocks b n i).length = n := by
  intro n
  induction n with
  | zero => intro i; rfl
  | succ n ih => intro i; simp [blocks, ih]

theorem mem_blocks {b : Int} : ∀ {n : Nat} {i : Int} {r : Int × Int},
    r ∈ blocks b n i → ∃ k : Nat, k < n ∧ r = (i + k * b, i + k * b + b) := by
  intro n
  induction n with
  | zero => intro i r h; simp [blocks] at h
  | succ n ih =>
    intro i r h
    simp only [blocks, List.mem_cons] at h
    rcases h with h | h
    · exact ⟨0, Nat.succ_pos n, by simp [h]⟩
    · obtain ⟨k, hk, hr⟩ := ih h
      refine ⟨k + 1, Nat.succ_lt_succ hk, ?_⟩
      rw [hr]
      push_cast
      ext <;> simp <;> ring

theorem blocks_get (b : Int) : ∀ (n : Nat) (i : Int) (k : Nat), k < n →
    (blocks b n i).get? k = some (i + k * b, i + k * b + b) := by
  intro n
  induction n with
  | zero => intro i k h; omega
  | succ n ih =>
    intro i k h
    cases k with
    | zero => simp [blocks]
    | succ k =>
      simp only [blocks, List.get?_cons_succ]
      rw [ih (i + b) k (by omega)]
      push_cast
      congr 1
      ext <;> simp <;> ring

theorem blocks_countP {b : Int} (hb : 0 < b) (x : Int) : ∀ (n : Nat) (i : Int),
    (blocks b n i).countP (fun r => decide (handles r x))
      = if i ≤ x ∧ x < i + n * b then 1 else 0 := by
  intro n
  induction n with
  | zero =>
    intro i
    have : ¬ (i ≤ x ∧ x < i) := by omega
    simp [blocks, this]
  | succ n ih =>
    intro i
    have hnb : (0 : Int) ≤ n * b := Int.mul_nonneg (Int.ofNat_nonneg n) (le_of_lt hb)
    have hcast : ((n + 1 : Nat) : Int) * b = n * b + b := by push_cast; ring
    simp only [blocks, List.countP_cons, ih (i + b), hcast, handles]
    by_cases h1 : i ≤ x <;> by_cases h2 : x < i + b <;> by_cases h3 : x < i + (n * b + b)
      <;> simp [h1, h2, h3] <;> omega

theorem blocks_pairwise {b : Int} (hb : 0 < b) : ∀ (n : Nat) (i : Int),
    (blocks b n i).Pairwise (fun r s => ∀ x, ¬ (handles r x ∧ handles s x)) := by
  intro n
  induction n with
  | zero => intro i; simp [blocks]
  | succ n ih =>
    intro i
    simp only [blocks, List.pairwise_cons]
    refine ⟨?_, ih (i + b)⟩
    intro s hs x hx
    obtain ⟨k, _, hr⟩ := mem_blocks hs
    have hkb : (0 : Int) ≤ k * b := Int.mul_nonneg (Int.ofNat_nonneg k) (le_of_lt hb)
    rw [hr] at hx
    simp only [handles] at hx
    omega

theorem blocks_handles {b : Int} (hb : 0 < b) (x : Int) (n : Nat) (i : Int) :
    (∃ r ∈ blocks b n i, handles r x) ↔ (i ≤ x ∧ x < i + n * b) := by
  have h := blocks_countP hb x n i
  constructor
  · rintro ⟨r, hr, hx⟩
    by_contra hcon
    rw [if_neg hcon, List.countP_eq_zero] at h
    exact absurd (decide_eq_true hx) (h r hr)
  · intro hx
    rw [if_pos hx] at h
    have hpos : 0 < (blocks b n i).countP (fun r => decide (handles r x)) := by omega
    obtain ⟨r, hr, hd⟩ := List.countP_pos_iff.mp hpos
    exact ⟨r, hr, of_decide_eq_true hd⟩

/-- Rounding `N` up to a multiple of `b`. -/
theorem roundUp_bounds {N b : Int} (hb : 1 ≤ b) (hN : 0 ≤ N) :
    N ≤ (N + b - 1) / b * b ∧ (N + b - 1) / b * b < N + b ∧ 0 ≤ (N + b - 1) / b := by
  have h1 := Int.emod_add_ediv (N + b - 1) b
  have h2 := Int.emod_nonneg (N + b - 1) (show b ≠ 0 by omega)
  have h3 := Int.emod_lt_of_pos (N + b - 1) (show 0 < b by omega)
  have h4 : 0 ≤ (N + b - 1) / b := Int.ediv_nonneg (by omega) (by omega)
  rw [mul_comm] at h1
  refine ⟨by omega, by omega, h4⟩

theorem numBlocks_spec {W N : Int} (hW : 1 ≤ W) (hb : 1 ≤ Int.tdiv N W) :
    (numBlocks W N : Int) * Int.tdiv N W = lastEnd W N ∧ N ≤ lastEnd W N ∧
      lastEnd W N < N + Int.tdiv N W ∧
      ∀ k : Nat, k < numBlocks W N → (k : Int) * Int.tdiv N W < N := by
  have hN : 0 ≤ N := nonneg_of_tdiv_pos hW hb
  obtain ⟨h1, h2, h3⟩ := roundUp_bounds hb hN
  have hdiv : Int.tdiv (N + Int.tdiv N W - 1) (Int.tdiv N W)
      = (N + Int.tdiv N W - 1) / Int.tdiv N W := Int.tdiv_eq_ediv (by omega) (by omega)
  have hm : (numBlocks W N : Int) = (N + Int.tdiv N W - 1) / Int.tdiv N W := by
    unfold numBlocks
    rw [hdiv, Int.toNat_of_nonneg h3]
  have hl : lastEnd W N = (N + Int.tdiv N W - 1) / Int.tdiv N W * Int.tdiv N W := by
    unfold lastEnd
    rw [hdiv]
  refine ⟨by rw [hm, hl], by rw [hl]; exact h1, by rw [hl]; exact h2, ?_⟩
  intro k hk
  have hk1 : (k : Int) + 1 ≤ numBlocks W N := by exact_mod_cast hk
  have hmul : ((k : Int) + 1) * Int.tdiv N W ≤ (numBlocks W N : Int) * Int.tdiv N W :=
    Int.mul_le_mul_of_nonneg_right hk1 (by omega)
  rw [hm, ← hl] at hmul
  have : ((k : Int) + 1) * Int.tdiv N W = k * Int.tdiv N W + Int.tdiv N W := by ring
  omega

/-- When the last range end fits into an `int`, the dispatch loop launches the
consecutive blocks of width `N / W` and exits after `numBlocks W N` iterations. -/
theorem dispatchLoop_fits {W N : Int} (hW : 1 ≤ W) (hb : 1 ≤ Int.tdiv N W)
    (hfit : lastEnd W N ≤ maxInt) (fuel : Nat) :
    dispatchLoop N (Int.tdiv N W) fuel 0
      = (blocks (Int.tdiv N W) (min fuel (numBlocks W N)) 0, decide (numBlocks W N < fuel)) := by
  obtain ⟨h1, h2, _, h4⟩ := numBlocks_spec hW hb
  apply dispatchLoop_blocks N (Int.tdiv N W) (by omega) (numBlocks W N) 0 fuel
  · unfold minInt; omega
  · omega
  · omega
  · intro k hk
    have := h4 k hk
    omega

theorem dispatch_fits {W N : Int} (hW : 1 ≤ W) (hb : 1 ≤ Int.tdiv N W)
    (hfit : lastEnd W N ≤ maxInt) :
    dispatch W N (numBlocks W N + 1) = some (blocks (Int.tdiv N W) (numBlocks W N) 0) := by
  unfold dispatch
  rw [dispatchLoop_fits hW hb hfit]
  simp

theorem launched_fits {W N : Int} (hW : 1 ≤ W) (hb : 1 ≤ Int.tdiv N W)
    (hfit : lastEnd W N ≤ maxInt) (fuel : Nat) :
    launched W N fuel = blocks (Int.tdiv N W) (min fuel (numBlocks W N)) 0 := by
  unfold launched
  rw [dispatchLoop_fits hW hb hfit]

/-- When `W` divides `N`, the exact loop makes `W` iterations and ends at `N`. -/
theorem dvd_facts {W N : Int} (hW : 1 ≤ W) (hN : 0 < N) (hdvd : W ∣ N) :
    1 ≤ Int.tdiv N W ∧ W * Int.tdiv N W = N ∧ numBlocks W N = W.toNat ∧ lastEnd W N = N := by
  have hq : Int.tdiv N W = N / W := tdiv_eq_div_of_nonneg hW (le_of_lt hN)
  have hmul : W * Int.tdiv N W = N := by rw [hq]; exact Int.mul_ediv_cancel' hdvd
  have hb : 1 ≤ Int.tdiv N W := by
    by_contra hcon
    have h0 : Int.tdiv N W ≤ 0 := by omega
    have : W * Int.tdiv N W ≤ 0 := Int.mul_nonpos_of_nonneg_of_nonpos (by omega) h0
    omega
  obtain ⟨h1, h2, h3, _⟩ := numBlocks_spec hW hb
  have hle : W ≤ (numBlocks W N : Int) := by
    have : W * Int.tdiv N W ≤ (numBlocks W N : Int) * Int.tdiv N W := by omega
    exact Int.le_of_mul_le_mul_right this (by omega)
  have hlt : (numBlocks W N : Int) < W + 1 := by
    have : (numBlocks W N : Int) * Int.tdiv N W < (W + 1) * Int.tdiv N W := by
      have : (W + 1) * Int.tdiv N W = W * Int.tdiv N W + Int.tdiv N W := by ring
      omega
    exact Int.lt_of_mul_lt_mul_right this (by omega)
  have hm : (numBlocks W N : Int) = W := by omega
  refine ⟨hb, hmul, by omega, ?_⟩
  rw [← h1, hm, hmul]

theorem dispatch_dvd {W N : Int} (hW : 1 ≤ W) (hN : 0 < N) (hdvd : W ∣ N)
    (hmax : N ≤ maxInt) :
    dispatch W N (W.toNat + 1) = some (blocks (Int.tdiv N W) W.toNat 0) := by
  obtain ⟨hb, _, hm, hl⟩ := dvd_facts hW hN hdvd
  have := dispatch_fits hW hb (by rw [hl]; exact hmax)
  rwa [hm] at this

theorem dispatch_none_of_loop {W N : Int} {fuel : Nat}
    (h : (dispatchLoop N (Int.tdiv N W) fuel 0).2 = false) : dispatch W N fuel = none := by
  unfold dispatch
  split
  · next rs heq => rw [heq] at h; simp at h
  · rfl

/-- With `count = maxInt` and `block = maxInt / 100` the loop variable stays even, hence
below `count`, for ever. -/
theorem dispatchLoop_maxInt_running : ∀ (fuel : Nat) (i : Int), i % 2 = 0 → i ≤ maxInt →
    (dispatchLoop maxInt 92233720368547758 fuel i).2 = false := by
  intro fuel
  induction fuel with
  | zero => intro i _ _; rfl
  | succ f ih =>
    intro i he hle
    have hlt : i < maxInt := by unfold maxInt at hle ⊢; omega
    simp only [dispatchLoop, hlt, if_true]
    apply ih
    · unfold wrap; omega
    · unfold wrap maxInt; omega

theorem dispatch_maxInt_running (fuel : Nat) : dispatch workers maxInt fuel = none := by
  apply dispatch_none_of_loop
  have hb : Int.tdiv maxInt workers = 92233720368547758 := by decide
  rw [hb]
  exact dispatchLoop_maxInt_running fuel 0 (by decide) (by decide)

/-- With `count = 50` and `block = 50 / 100 = 0` the loop variable stays 0. -/
theorem dispatchLoop_zero_block : ∀ (fuel : Nat),
    dispatchLoop 50 0 fuel 0 = (List.replicate fuel (0, 0), false) := by
  intro fuel
  induction fuel with
  | zero => rfl
  | succ f ih =>
    have hw : wrap (0 + 0) = 0 := by decide
    simp only [dispatchLoop, hw, ih, List.replicate_succ]
    simp

/-! ## Key formatting is injective -/

theorem digitChar_inj : ∀ a < 10, ∀ b < 10, Nat.digitChar a = Nat.digitChar b → a = b := by
  decide

theorem digitChar_ne_minus : ∀ a < 10, Nat.digitChar a ≠ '-' := by
  decide

theorem map_digitChar_inj : ∀ (l1 l2 : List Nat), (∀ d ∈ l1, d < 10) → (∀ d ∈ l2, d < 10) →
    l1.map Nat.digitChar = l2.map Nat.digitChar → l1 = l2 := by
  intro l1
  induction l1 with
  | nil =>
    intro l2 _ _ h
    cases l2 with
    | nil => rfl
    | cons b t => simp at h
  | cons a s ih =>
    intro l2 h1 h2 h
    cases l2 with
    | nil => simp at h
    | cons b t =>
      simp only [List.map_cons, List.cons.injEq] at h
      have hab := digitChar_inj a (h1 a (List.mem_cons_self _ _)) b
        (h2 b (List.mem_cons_self _ _)) h.1
      have hst := ih t (fun d hd => h1 d (List.mem_cons_of_mem _ hd))
        (fun d hd => h2 d (List.mem_cons_of_mem _ hd)) h.2
      rw [hab, hst]

theorem digits_rev_lt (n : Nat) : ∀ d ∈ (Nat.digits 10 n).reverse, d < 10 := by
  intro d hd
  exact Nat.digits_lt_base (by decide) (List.mem_reverse.mp hd)

theorem fmtNat_pos {n : Nat} (hn : n ≠ 0) :
    fmtNat n = (Nat.digits 10 n).reverse.map Nat.digitChar := by
  unfold fmtNat
  rw [if_neg hn]

theorem fmtNat_ne_zero {n : Nat} (hn : n ≠ 0) : fmtNat n ≠ ['0'] := by
  intro h
  rw [fmtNat_pos hn] at h
  have h0 : ['0'] = [0].map Nat.digitChar := by decide
  rw [h0] at h
  have hrev := map_digitChar_inj _ _ (digits_rev_lt n) (by decide) h
  have hd : Nat.digits 10 n = [0] := by
    have := congrArg List.reverse hrev
    simpa using this
  have hlast := Nat.getLast_digit_ne_zero 10 hn
  simp [hd] at hlast

theorem fmtNat_inj {n m : Nat} (h : fmtNat n = fmtNat m) : n = m := by
  by_cases hn : n = 0
  · by_cases hm : m = 0
    · rw [hn, hm]
    · rw [hn] at h
      exact absurd h.symm (fmtNat_ne_zero hm)
  · by_cases hm : m = 0
    · rw [hm] at h
      exact absurd h (fmtNat_ne_zero hn)
    · rw [fmtNat_pos hn, fmtNat_pos hm] at h
      have hrev := map_digitChar_inj _ _ (digits_rev_lt n) (digits_rev_lt m) h
      exact Nat.digits_inj_iff.mp (List.reverse_injective hrev)

theorem fmtNat_no_minus (n : Nat) : ∀ c ∈ fmtNat n, c ≠ '-' := by
  intro c hc
  by_cases hn : n = 0
  · rw [hn] at hc
    have : c = '0' := by simpa [fmtNat] using hc
    rw [this]
    decide
  · rw [fmtNat_pos hn, List.mem_map] at hc
    obtain ⟨d, hd, rfl⟩ := hc
    exact digitChar_ne_minus d (digits_rev_lt n d hd)

theorem fmtNat_ne_minus_cons (n m : Nat) : fmtNat n ≠ '-' :: fmtNat m := by
  intro h
  have hmem : '-' ∈ fmtNat n := by rw [h]; exact List.mem_cons_self _ _
  exact fmtNat_no_minus n '-' hmem rfl

theorem fmtInt_inj {i j : Int} (h : fmtInt i = fmtInt j) : i = j := by
  unfold fmtInt at h
  by_cases hi : i < 0 <;> by_cases hj : j < 0
  · rw [if_pos hi, if_pos hj] at h
    have := fmtNat_inj (List.cons.inj h).2
    omega
  · rw [if_pos hi, if_neg hj] at h
    exact absurd h.symm (fmtNat_ne_minus_cons _ _)
  · rw [if_neg hi, if_pos hj] at h
    exact absurd h (fmtNat_ne_minus_cons _ _)
  · rw [if_neg hi, if_neg hj] at h
    have := fmtNat_inj h
    omega

theorem pattern_inj {i j : Int} (h : pattern i = pattern j) : i = j := by
  unfold pattern at h
  have h1 := congrArg String.data h
  simp only at h1
  have h2 := List.append_cancel_right h1
  exact fmtInt_inj (List.append_cancel_left h2)

/-! ## The map -/

theorem mapIndex_none {l : List (String × valuePtr)} {key : String} :
    mapIndex l key = none ↔ key ∉ l.map Prod.fst := by
  induction l with
  | nil => simp [mapIndex]
  | cons e rest ih =>
    obtain ⟨k, v⟩ := e
    by_cases hk : k = key
    · simp [mapIndex, hk]
    · have hk2 : ¬ key = k := fun h => hk h.symm
      simp [mapIndex, hk, hk2, ih]

theorem mapIndex_some {l : List (String × valuePtr)} {key : String} {v : valuePtr}
    (h : mapIndex l key = some v) : (key, v) ∈ l := by
  induction l with
  | nil => simp [mapIndex] at h
  | cons e rest ih =>
    obtain ⟨k, w⟩ := e
    by_cases hk : k = key
    · simp [mapIndex, hk] at h
      simp [hk, h]
    · simp [mapIndex, hk] at h
      exact List.mem_cons_of_mem _ (ih h)

theorem rwMap.load_ne_nil {c : rwMap} (hc : c.Good) (key : String) :
    c.load key ≠ none ↔ key ∈ c.keys := by
  unfold rwMap.load
  cases hm : mapIndex c.mp key with
  | none =>
    have := mapIndex_none.mp hm
    simp [rwMap.keys, this]
  | some v =>
    have hmem := mapIndex_some hm
    have hv : v = newValue := hc.2 _ hmem
    have hk : key ∈ c.keys := List.mem_map.mpr ⟨(key, v), hmem, rfl⟩
    simp [hv, newValue, hk]

theorem rwMap.keys_store (c : rwMap) (key : String) (v : valuePtr) :
    (c.store key v).keys = key :: c.keys.filter (fun k => decide (k ≠ key)) := by
  simp only [rwMap.keys, rwMap.store, List.map_cons, List.filter_map]
  rfl

theorem rwMap.mem_keys_store (c : rwMap) (key : String) (v : valuePtr) (k : String) :
    k ∈ (c.store key v).keys ↔ k = key ∨ k ∈ c.keys := by
  rw [rwMap.keys_store]
  by_cases hk : k = key <;> simp [hk]

theorem rwMap.good_store {c : rwMap} (hc : c.Good) (key : String) :
    (c.store key newValue).Good := by
  constructor
  · rw [rwMap.keys_store]
    refine List.nodup_cons.mpr ⟨by simp, hc.1.filter _⟩
  · intro e he
    simp only [rwMap.store, List.mem_cons, List.mem_filter] at he
    rcases he with he | he
    · rw [he]
    · exact hc.2 e he.1

theorem mem_storeSites {tr : List Op} {k : String} : k ∈ storeSites tr ↔ Op.store k ∈ tr := by
  induction tr with
  | nil => simp [storeSites]
  | cons op rest ih =>
    cases op with
    | store s => simp [storeSites, ih]
    | load s => simp [storeSites, ih]

theorem storeSites_append (a b : List Op) :
    storeSites (a ++ b) = storeSites a ++ storeSites b := by
  induction a with
  | nil => rfl
  | cons op rest ih =>
    cases op with
    | store s => simp [storeSites, ih]
    | load s => simp [storeSites, ih]

theorem storeSites_perm {a b : List Op} (h : a.Perm b) : (storeSites a).Perm (storeSites b) := by
  induction h with
  | nil => exact List.Perm.refl _
  | cons x _ ih =>
    cases x with
    | store s => exact List.Perm.cons _ ih
    | load s => exact ih
  | swap x y l =>
    cases x <;> cases y <;> simp [storeSites, List.Perm.swap]
  | trans _ _ ih1 ih2 => exact ih1.trans ih2

theorem length_eq_stores_add_loads (tr : List Op) :
    tr.length = (storeSites tr).length + loadCount tr := by
  induction tr with
  | nil => rfl
  | cons op rest ih =>
    cases op with
    | store s => simp [storeSites, loadCount, ih]; omega
    | load s => simp [storeSites, loadCount, ih]; omega

/-- Running a sequence of calls keeps the invariant and adds exactly the stored keys. -/
theorem foldl_apply_spec : ∀ (tr : List Op) (c : rwMap), c.Good →
    (tr.foldl rwMap.apply c).Good ∧
      ∀ k, k ∈ (tr.foldl rwMap.apply c).keys ↔ (k ∈ c.keys ∨ k ∈ storeSites tr) := by
  intro tr
  induction tr with
  | nil => intro c hc; simp [storeSites, hc]
  | cons op rest ih =>
    intro c hc
    cases op with
    | store s =>
      obtain ⟨h1, h2⟩ := ih (c.store s newValue) (rwMap.good_store hc s)
      refine ⟨h1, fun k => ?_⟩
      simp only [List.foldl_cons, rwMap.apply, h2 k, rwMap.mem_keys_store, storeSites,
        List.mem_cons]
      tauto
    | load s =>
      obtain ⟨h1, h2⟩ := ih c hc
      exact ⟨h1, fun k => by simpa [rwMap.apply, storeSites] using h2 k⟩

theorem rwMap.good_empty : rwMap.empty.Good := by
  constructor
  · simp [rwMap.keys, rwMap.empty]
  · intro e he
    simp [rwMap.empty] at he

/-- After a sequence of calls on the empty map whose stored keys are, up to order, the
duplicate-free list `ws`, the map has `ws.length` entries and `load` finds exactly the
keys of `ws`. -/
theorem final_map_spec {tr : List Op} {ws : List String} (hperm : (storeSites tr).Perm ws)
    (hnd : ws.Nodup) :
    (tr.foldl rwMap.apply rwMap.empty).len = ws.length ∧
      ∀ k, (tr.foldl rwMap.apply rwMap.empty).load k ≠ none ↔ k ∈ ws := by
  obtain ⟨hg, hk⟩ := foldl_apply_spec tr rwMap.empty rwMap.good_empty
  have hkeys : ∀ k, k ∈ (tr.foldl rwMap.apply rwMap.empty).keys ↔ k ∈ ws := by
    intro k
    rw [hk k, hperm.mem_iff]
    simp [rwMap.keys, rwMap.empty]
  constructor
  · have hp : (tr.foldl rwMap.apply rwMap.empty).keys.Perm ws :=
      (List.perm_ext_iff_of_nodup hg.1 hnd).mpr hkeys
    have := hp.length_eq
    simp only [rwMap.keys, List.length_map] at this
    simp [rwMap.len, this]
  · intro k
    rw [rwMap.load_ne_nil hg, hkeys]

/-! ## Interleavings -/

theorem flatten_of_all_isEmpty : ∀ (ps : List (List Op)), ps.all List.isEmpty = true →
    ps.flatten = [] := by
  intro ps
  induction ps with
  | nil => intro _; rfl
  | cons p rest ih =>
    intro h
    simp only [List.all_cons, Bool.and_eq_true, List.isEmpty_eq_true] at h
    rw [List.flatten_cons, h.1, ih h.2]
    rfl

theorem flatten_set_perm {op : Op} {rest : List Op} : ∀ (ps : List (List Op)) (k : Nat),
    ps.get? k = some (op :: rest) → ps.flatten.Perm (op :: (ps.set k rest).flatten) := by
  intro ps
  induction ps with
  | nil => intro k h; simp at h
  | cons p tl ih =>
    intro k h
    cases k with
    | zero =>
      simp only [List.get?_cons_zero, Option.some.injEq] at h
      simp [h]
    | succ k =>
      simp only [List.get?_cons_succ] at h
      simp only [List.set_cons_succ, List.flatten_cons]
      exact (List.Perm.append_left p (ih k h)).trans List.perm_middle

/-- The trace of a complete schedule is a rearrangement of all the goroutines' calls. -/
theorem interleave_perm : ∀ (sched : List Nat) (ps : List (List Op)) (tr : List Op),
    interleave sched ps = some tr → tr.Perm ps.flatten := by
  intro sched
  induction sched with
  | nil =>
    intro ps tr h
    unfold interleave at h
    split at h
    · next hall =>
      rw [flatten_of_all_isEmpty ps hall]
      simp only [Option.some.injEq] at h
      rw [← h]
    · exact absurd h (by simp)
  | cons k sched ih =>
    intro ps tr h
    unfold interleave at h
    split at h
    · next op rest hget =>
      split at h
      · exact absurd h (by simp)
      · next tr1 hrec =>
        simp only [Option.some.injEq] at h
        rw [← h]
        exact (List.Perm.cons op (ih _ _ hrec)).trans (flatten_set_perm ps k hget).symm
    · exact absurd h (by simp)

theorem interleave_seq_head (k : Nat) (sched : List Nat) (tl : List (List Op)) :
    ∀ (p : List Op) (tr : List Op),
      interleave sched (List.replicate k [] ++ [] :: tl) = some tr →
      interleave (List.replicate p.length k ++ sched) (List.replicate k [] ++ p :: tl)
        = some (p ++ tr) := by
  intro p
  induction p with
  | nil => intro tr h; simpa using h
  | cons op rest ih =>
    intro tr h
    have hget : (List.replicate k ([] : List Op) ++ (op :: rest) :: tl).get? k
        = some (op :: rest) := by
      rw [List.get?_eq_getElem?, List.getElem?_append_right (by simp)]
      simp
    have hset : (List.replicate k ([] : List Op) ++ (op :: rest) :: tl).set k rest
        = List.replicate k [] ++ rest :: tl := by
      rw [List.set_append_right _ _ (by simp)]
      simp
    simp only [List.length_cons, List.replicate_succ, List.cons_append]
    unfold interleave
    simp only [hget, hset, ih tr h]

/-- The schedule that runs the goroutines one after the other is complete. -/
theorem interleave_seq : ∀ (ps : List (List Op)) (k : Nat),
    interleave (seqSchedule k ps) (List.replicate k [] ++ ps) = some ps.flatten := by
  intro ps
  induction ps with
  | nil =>
    intro k
    simp [seqSchedule, interleave]
  | cons p tl ih =>
    intro k
    have h := ih (k + 1)
    have hrep : List.replicate (k + 1) ([] : List Op) ++ tl
        = List.replicate k [] ++ [] :: tl := by
      rw [List.replicate_succ']
      simp
    rw [hrep] at h
    simpa [seqSchedule] using interleave_seq_head k _ tl p _ h

/-! ## Workers in closed form -/

theorem tmod_ten_eq_zero_iff {i : Int} (hi : 0 ≤ i) : Int.tmod i 10 = 0 ↔ i % 10 = 0 := by
  rw [Int.tmod_eq_emod hi (by decide)]

theorem iteration_nonneg (g : Int → Nat) {i : Int} (hi : 0 ≤ i) :
    iteration (g i) i = some (opAt g i) := by
  unfold iteration opAt
  by_cases h : Int.tmod i 10 = 0
  · simp [h]
  · have hne : i ≠ 0 := by
      rintro rfl
      exact h (by decide)
    have hpos : ¬ i ≤ 0 := by omega
    simp [h, Intn, hpos]

/-- The call at a non-negative index is a `store` of the index's key when the index is a
multiple of 10, and otherwise a `load` of the key of some `r` with `0 ≤ r < i`. -/
theorem opAt_shape (g : Int → Nat) {i : Int} (hi : 0 ≤ i) :
    (Int.tmod i 10 = 0 ∧ opAt g i = Op.store (pattern i)) ∨
      (Int.tmod i 10 ≠ 0 ∧ ∃ r, 0 ≤ r ∧ r < i ∧ opAt g i = Op.load (pattern r)) := by
  unfold opAt
  by_cases h : Int.tmod i 10 = 0
  · left
    simp [h]
  · right
    have hne : i ≠ 0 := by
      rintro rfl
      exact h (by decide)
    refine ⟨h, (g i : Int) % i, Int.emod_nonneg _ hne, Int.emod_lt_of_pos _ (by omega), ?_⟩
    simp [h]

theorem workerLoop_closed (g : Int → Nat) (to_ : Int) : ∀ (fuel : Nat) (i : Int), 0 ≤ i →
    workerLoop g to_ fuel i = some ((idx (min fuel (to_ - i).toNat) i).map (opAt g)) := by
  intro fuel
  induction fuel with
  | zero => intro i _; simp [workerLoop, idx]
  | succ f ih =>
    intro i hi
    by_cases hlt : i < to_
    · have hn : (to_ - i).toNat = (to_ - (i + 1)).toNat + 1 := by omega
      simp only [workerLoop, hlt, if_true, iteration_nonneg g hi, ih (i + 1) (by omega), hn,
        Nat.succ_min_succ, idx, List.map_cons]
    · have hn : (to_ - i).toNat = 0 := by omega
      simp [workerLoop, hlt, hn, idx]

theorem worker_closed (g : Int → Nat) {from_ : Int} (to_ : Int) (h : 0 ≤ from_) :
    worker g from_ to_ = some ((idx (to_ - from_).toNat from_).map (opAt g)) := by
  unfold worker
  rw [workerLoop_closed g to_ _ _ h, Nat.min_self]

theorem spawn_blocks (g : Nat → Int → Nat) {b : Int} (hb : 0 < b) :
    ∀ (n k : Nat) (i : Int), 0 ≤ i → spawn g k (blocks b n i) = some (progsOf g b k n i) := by
  intro n
  induction n with
  | zero => intro k i _; rfl
  | succ n ih =>
    intro k i hi
    have hw : (i + b - i).toNat = b.toNat := by
      congr 1
      omega
    simp only [blocks, spawn, worker_closed (g k) (i + b) hi, hw, ih (k + 1) (i + b) (by omega),
      progsOf]

/-! ## Counting the calls -/

theorem idx_append : ∀ (a c : Nat) (i : Int), idx (a + c) i = idx a i ++ idx c (i + a) := by
  intro a
  induction a with
  | zero => intro c i; simp [idx]
  | succ a ih =>
    intro c i
    have h1 : a + 1 + c = (a + c) + 1 := by omega
    have h2 : i + ((a + 1 : Nat) : Int) = i + 1 + a := by push_cast; ring
    rw [h1, h2]
    simp only [idx, ih c (i + 1), List.cons_append]

theorem idx_length : ∀ (n : Nat) (i : Int), (idx n i).length = n := by
  intro n
  induction n with
  | zero => intro i; rfl
  | succ n ih => intro i; simp [idx, ih]

theorem mem_idx : ∀ (n : Nat) (i x : Int), x ∈ idx n i ↔ (i ≤ x ∧ x < i + n) := by
  intro n
  induction n with
  | zero => intro i x; simp [idx]
  | succ n ih =>
    intro i x
    simp only [idx, List.mem_cons, ih (i + 1) x]
    push_cast
    omega

theorem idx_nodup : ∀ (n : Nat) (i : Int), (idx n i).Nodup := by
  intro n
  induction n with
  | zero => intro i; simp [idx]
  | succ n ih =>
    intro i
    simp only [idx, List.nodup_cons]
    refine ⟨?_, ih (i + 1)⟩
    rw [mem_idx]
    omega

theorem storeSites_map_opAt (g : Int → Nat) : ∀ (l : List Int),
    storeSites (l.map (opAt g))
      = (l.filter (fun x => decide (Int.tmod x 10 = 0))).map pattern := by
  intro l
  induction l with
  | nil => rfl
  | cons x rest ih =>
    by_cases h : Int.tmod x 10 = 0
    · simp [opAt, h, storeSites, ih]
    · simp [opAt, h, storeSites, ih]

theorem storeSites_progsOf (g : Nat → Int → Nat) {b : Int} (hb : 0 < b) :
    ∀ (n k : Nat) (i : Int),
      storeSites (progsOf g b k n i).flatten = writes (n * b.toNat) i := by
  intro n
  induction n with
  | zero => intro k i; simp [progsOf, storeSites, writes, idx]
  | succ n ih =>
    intro k i
    have h1 : (n + 1) * b.toNat = b.toNat + n * b.toNat := by ring
    have h2 : i + ((b.toNat : Nat) : Int) = i + b := by
      rw [Int.toNat_of_nonneg (le_of_lt hb)]
    simp only [progsOf, List.flatten_cons, storeSites_append, storeSites_map_opAt,
      ih (k + 1) (i + b), h1, writes, idx_append, h2, List.filter_append, List.map_append]

theorem length_progsOf (g : Nat → Int → Nat) (b : Int) :
    ∀ (n k : Nat) (i : Int), (progsOf g b k n i).flatten.length = n * b.toNat := by
  intro n
  induction n with
  | zero => intro k i; simp [progsOf]
  | succ n ih =>
    intro k i
    simp only [progsOf, List.flatten_cons, List.length_append, List.length_map, idx_length,
      ih (k + 1) (i + b)]
    ring

theorem mem_writes (n : Nat) (i : Int) (k : String) :
    k ∈ writes n i ↔ ∃ x, i ≤ x ∧ x < i + n ∧ Int.tmod x 10 = 0 ∧ k = pattern x := by
  simp only [writes, List.mem_map, List.mem_filter, mem_idx, decide_eq_true_eq]
  constructor
  · rintro ⟨x, ⟨⟨h1, h2⟩, h3⟩, h4⟩
    exact ⟨x, h1, h2, h3, h4.symm⟩
  · rintro ⟨x, h1, h2, h3, h4⟩
    exact ⟨x, ⟨⟨h1, h2⟩, h3⟩, h4.symm⟩

theorem writes_nodup (n : Nat) (i : Int) : (writes n i).Nodup := by
  unfold writes
  exact ((idx_nodup n i).filter _).map (fun _ _ h => pattern_inj h)

/-- The number of multiples of 10 among `i, ..., i+n-1`, for `i ≥ 0`. -/
theorem writes_length : ∀ (n : Nat) (i : Int), 0 ≤ i →
    ((writes n i).length : Int) = (i + n + 9) / 10 - (i + 9) / 10 := by
  intro n
  induction n with
  | zero => intro i _; simp [writes, idx]
  | succ n ih =>
    intro i hi
    have hrec := ih (i + 1) (by omega)
    simp only [writes, List.length_map] at hrec ⊢
    by_cases h : Int.tmod i 10 = 0
    · have h' := (tmod_ten_eq_zero_iff hi).mp h
      simp only [idx, List.filter_cons, h, decide_True, if_true, List.length_cons]
      push_cast
      omega
    · have h' : ¬ i % 10 = 0 := fun hh => h ((tmod_ten_eq_zero_iff hi).mpr hh)
      simp only [idx, List.filter_cons, h, decide_False, Bool.false_eq_true, if_false]
      push_cast
      omega

/-! ## A trial whose operation count is a multiple of the worker count -/

theorem dispatch_some_fits {W N : Int} (hW : 1 ≤ W) (hb : 1 ≤ Int.tdiv N W)
    (hfit : lastEnd W N ≤ maxInt) {fuel : Nat} {rs : List (Int × Int)}
    (h : dispatch W N fuel = some rs) : rs = blocks (Int.tdiv N W) (numBlocks W N) 0 := by
  unfold dispatch at h
  rw [dispatchLoop_fits hW hb hfit] at h
  by_cases hlt : numBlocks W N < fuel
  · simp only [hlt, decide_True, Option.some.injEq] at h
    rw [← h, Nat.min_eq_right (le_of_lt hlt)]
  · simp [hlt] at h

theorem toNat_mul_block {W N : Int} (hW : 1 ≤ W) (hN : 0 < N) (hdvd : W ∣ N) :
    W.toNat * (Int.tdiv N W).toNat = N.toNat := by
  obtain ⟨hb, hmul, _, _⟩ := dvd_facts hW hN hdvd
  have : ((W.toNat * (Int.tdiv N W).toNat : Nat) : Int) = (N.toNat : Int) := by
    push_cast
    rw [Int.toNat_of_nonneg (by omega), Int.toNat_of_nonneg (by omega),
      Int.toNat_of_nonneg (by omega), hmul]
  exact_mod_cast this

/-- What every completed trial looks like when `W` divides `N`. -/
theorem test_dvd_spec {W N : Int} (hW : 1 ≤ W) (hN : 0 < N) (hdvd : W ∣ N)
    (hmax : N ≤ maxInt) {c : rwMap} {fuel : Nat} {g : Nat → Int → Nat} {sched : List Nat}
    {t : Trial} (h : test W c N fuel g sched = some t) :
    t.ranges = blocks (Int.tdiv N W) W.toNat 0 ∧
      (storeSites t.trace).Perm (writes N.toNat 0) ∧
      t.trace.length = N.toNat ∧
      t.final = t.trace.foldl rwMap.apply c ∧ t.len = t.final.len := by
  obtain ⟨hb, _, hm, hl⟩ := dvd_facts hW hN hdvd
  unfold test at h
  split at h
  · exact absurd h (by simp)
  · next rs hrs =>
    have hrs2 := dispatch_some_fits hW hb (by rw [hl]; exact hmax) hrs
    rw [hm] at hrs2
    split at h
    · exact absurd h (by simp)
    · next ps hps =>
      rw [hrs2, spawn_blocks g (by omega) _ _ _ (le_refl 0)] at hps
      simp only [Option.some.injEq] at hps
      split at h
      · exact absurd h (by simp)
      · next tr htr =>
        simp only [Option.some.injEq] at h
        have hperm := interleave_perm _ _ _ htr
        rw [← hps] at hperm
        rw [← h]
        refine ⟨hrs2, ?_, ?_, rfl, rfl⟩
        · have := storeSites_perm hperm
          rwa [storeSites_progsOf g (by omega), toNat_mul_block hW hN hdvd] at this
        · have := hperm.length_eq
          rwa [length_progsOf, toNat_mul_block hW hN hdvd] at this

/-- A trial completes when `W` divides `N`: the dispatch loop exits after `W` iterations,
no goroutine panics, and running the goroutines one after the other is a complete
schedule. -/
theorem test_dvd_exists {W N : Int} (hW : 1 ≤ W) (hN : 0 < N) (hdvd : W ∣ N)
    (hmax : N ≤ maxInt) (c : rwMap) (g : Nat → Int → Nat) :
    ∃ fuel sched t, test W c N fuel g sched = some t := by
  obtain ⟨hb, _, _, _⟩ := dvd_facts hW hN hdvd
  have hseq := interleave_seq (progsOf g (Int.tdiv N W) 0 W.toNat 0) 0
  simp only [List.replicate_zero, List.nil_append] at hseq
  refine ⟨W.toNat + 1, seqSchedule 0 (progsOf g (Int.tdiv N W) 0 W.toNat 0), ?_⟩
  unfold test
  rw [dispatch_dvd hW hN hdvd hmax]
  simp only [spawn_blocks g (show 0 < Int.tdiv N W by omega) _ _ _ (le_refl 0), hseq]
  exact ⟨_, rfl⟩

theorem writes_length_zero {N : Int} (hN : 0 < N) :
    ((writes N.toNat 0).length : Int) = (N + 9) / 10 := by
  rw [writes_length _ _ (le_refl 0), Int.toNat_of_nonneg (le_of_lt hN)]
  omega

theorem mem_writes_zero {N : Int} (hN : 0 < N) (k : String) :
    k ∈ writes N.toNat 0 ↔ ∃ i, 0 ≤ i ∧ i < N ∧ Int.tmod i 10 = 0 ∧ k = pattern i := by
  rw [mem_writes, Int.toNat_of_nonneg (le_of_lt hN)]
  simp

/-! ## Claims about the dispatch loop -/

/-- C1 (as amended): for every `N` and `W ≥ 1` with `block = N / W ≥ 1` such that the end
of the last range (`N` rounded up to a multiple of `block`) is at most the largest `int`,
the dispatch loop exits, the launched ranges are pairwise disjoint, and every index of
`[0, N)` lies in exactly one of them. -/
theorem C1_partition_complete (W N : Int) (hW : 1 ≤ W) (hb : 1 ≤ Int.tdiv N W)
    (hfit : lastEnd W N ≤ maxInt) : PartitionComplete W N := by
  obtain ⟨h1, h2, _, _⟩ := numBlocks_spec hW hb
  refine ⟨numBlocks W N + 1, _, dispatch_fits hW hb hfit, blocks_pairwise (by omega) _ _, ?_⟩
  intro x hx0 hxN
  rw [blocks_countP (by omega)]
  have : 0 ≤ x ∧ x < 0 + (numBlocks W N : Int) * Int.tdiv N W := by omega
  rw [if_pos this]

/-- C1, instance: 105 operations on 10 workers (block 10, last range ends at 110). -/
theorem C1_partition_complete_witness :
    (1 : Int) ≤ 10 ∧ 1 ≤ Int.tdiv 105 10 ∧ lastEnd 10 105 ≤ maxInt ∧
      PartitionComplete 10 105 :=
  ⟨by decide, by decide, by decide,
    C1_partition_complete 10 105 (by decide) (by decide) (by decide)⟩

/-- C1 as stated fails: with `count = 2^63 - 1` and the 100 workers of the source,
`block = 92233720368547758 ≥ 1`.  After 101 iterations `i += block` wraps around to a
negative number; `block` is even, so the loop variable stays even and can never reach the
odd `count`: the dispatch loop does not exit and there is no finite family of ranges.
Moreover the ranges are not disjoint: the 201st goroutine is launched with
`[-16, 92233720368547742)` and handles index 0 a second time, after the first goroutine
`[0, 92233720368547758)`. -/
theorem C1_counterexample :
    1 ≤ workers ∧ 1 ≤ Int.tdiv maxInt workers ∧ ¬ PartitionComplete workers maxInt ∧
      (launched workers maxInt 201).get? 0 = some (0, 92233720368547758) ∧
      (launched workers maxInt 201).get? 200 = some (-16, 92233720368547742) ∧
      handles (0, 92233720368547758) 0 ∧ handles (-16, 92233720368547742) 0 := by
  refine ⟨by decide, by decide, ?_, rfl, rfl, by decide, by decide⟩
  rintro ⟨fuel, rs, h, _⟩
  rw [dispatch_maxInt_running fuel] at h
  exact absurd h (by simp)

/-- C2: when `W ≥ 1` divides the positive operation count `N`, the dispatch loop exits
having launched exactly `W` goroutines, the `k`-th with the range
`[k * (N/W), (k+1) * (N/W))`, and the indices handled by the goroutines are exactly
those of `[0, N)`. -/
theorem C2_exact_split (W N : Int) (hW : 1 ≤ W) (hN : 0 < N) (hdvd : W ∣ N)
    (hmax : N ≤ maxInt) :
    ∃ fuel rs, dispatch W N fuel = some rs ∧ (rs.length : Int) = W ∧
      (∀ k : Nat, (k : Int) < W →
        rs.get? k = some ((k : Int) * Int.tdiv N W, ((k : Int) + 1) * Int.tdiv N W)) ∧
      ∀ x, (∃ r ∈ rs, handles r x) ↔ (0 ≤ x ∧ x < N) := by
  obtain ⟨hb, hmul, _, _⟩ := dvd_facts hW hN hdvd
  refine ⟨W.toNat + 1, _, dispatch_dvd hW hN hdvd hmax, ?_, ?_, ?_⟩
  · rw [blocks_length]; omega
  · intro k hk
    rw [blocks_get _ _ _ _ (by omega)]
    congr 1
    ext <;> simp
    ring
  · intro x
    rw [blocks_handles (by omega)]
    have : ((W.toNat : Nat) : Int) = W := Int.toNat_of_nonneg (by omega)
    rw [this, hmul]
    omega

/-- C2, instance: the constants of the source, `N = 10^6` and `W = 100`, give exactly 100
goroutines, the `k`-th with the 10000 indices `[10000 k, 10000 (k+1))`. -/
theorem C2_exact_split_witness :
    1 ≤ workers ∧ 0 < mainCount ∧ workers ∣ mainCount ∧ mainCount ≤ maxInt ∧
    ∃ fuel rs, dispatch workers mainCount fuel = some rs ∧ (rs.length : Int) = 100 ∧
      (∀ k : Nat, (k : Int) < 100 →
        rs.get? k = some ((k : Int) * 10000, ((k : Int) + 1) * 10000)) ∧
      ∀ x, (∃ r ∈ rs, handles r x) ↔ (0 ≤ x ∧ x < 1000000) :=
  ⟨by decide, by decide, by decide, by decide,
    C2_exact_split workers mainCount (by decide) (by decide) (by decide) (by decide)⟩

/-- C6, failing input: with the 100 workers of the source and `count = 50`, `block` is 0,
the loop variable never advances, and the dispatch loop launches a goroutine on the empty
range `[0, 0)` at every iteration without ever exiting. -/
theorem C6_dispatch_diverges :
    Int.tdiv 50 workers = 0 ∧
      ∀ fuel, dispatch workers 50 fuel = none ∧
        launched workers 50 fuel = List.replicate fuel (0, 0) := by
  refine ⟨by decide, fun fuel => ?_⟩
  have hb : Int.tdiv 50 workers = 0 := by decide
  constructor
  · apply dispatch_none_of_loop
    rw [hb, dispatchLoop_zero_block]
  · unfold launched
    rw [hb, dispatchLoop_zero_block]

/-- C7, failing input: with the 100 workers of the source and `count = 299` (block 2) the
last goroutine is launched with the range `[298, 300)`, not shortened to end at 299, and
it performs a `load` for the index 299, which is not below `count`. -/
theorem C7_last_range_overshoots :
    ∃ rs, dispatch workers 299 151 = some rs ∧ rs.getLast? = some (298, 300) ∧
      handles (298, 300) 299 ∧
      ∀ g : Int → Nat, worker g 298 300
        = some [Op.load (pattern ((g 298 : Int) % 298)), Op.load (pattern ((g 299 : Int) % 299))] := by
  refine ⟨_, rfl, by decide, by decide, ?_⟩
  intro g
  have h1 : ¬ Int.tmod 298 10 = 0 := by decide
  have h2 : ¬ Int.tmod 299 10 = 0 := by decide
  have h3 : (300 - 298 : Int).toNat = 2 := by decide
  simp [worker, h3, workerLoop, iteration, Intn, h1, h2]

/-- C8, failing input: with the 100 workers of the source and `count = 299` (block 2) the
dispatch loop launches 150 goroutines, not 100. -/
theorem C8_worker_count_exceeds :
    (dispatch workers 299 151).map List.length = some 150 ∧ (150 : Int) ≠ workers := by
  constructor
  · rfl
  · decide

/-- C9 (as amended): for every `N` and `W ≥ 1` with `N / W ≥ 1` such that the end of the
last range is at most the largest `int`, every index handled by a launched goroutine is
non-negative, and on the read branch it is at least 1, `rand.Intn` does not panic and the
drawn number `r` satisfies `0 ≤ r < i`. -/
theorem C9_draw_safe (W N : Int) (hW : 1 ≤ W) (hb : 1 ≤ Int.tdiv N W)
    (hfit : lastEnd W N ≤ maxInt) : DrawSafe W N := by
  intro fuel r hr i hi
  rw [launched_fits hW hb hfit] at hr
  obtain ⟨k, _, hk⟩ := mem_blocks hr
  have hkb : (0 : Int) ≤ k * Int.tdiv N W :=
    Int.mul_nonneg (Int.ofNat_nonneg k) (by omega)
  rw [hk] at hi
  simp only [handles] at hi
  have hi0 : 0 ≤ i := by omega
  refine ⟨hi0, fun hmod => ?_⟩
  have hne : i ≠ 0 := by
    rintro rfl
    exact hmod (by decide)
  have hpos : 1 ≤ i := by omega
  refine ⟨hpos, fun g => ⟨(g : Int) % i, ?_, Int.emod_nonneg _ hne, Int.emod_lt_of_pos _ (by omega)⟩⟩
  unfold Intn
  rw [if_neg (by omega)]

/-- C9, instance: 299 operations on the 100 workers of the source. -/
theorem C9_draw_safe_witness :
    1 ≤ workers ∧ 1 ≤ Int.tdiv 299 workers ∧ lastEnd workers 299 ≤ maxInt ∧
      DrawSafe workers 299 :=
  ⟨by decide, by decide, by decide,
    C9_draw_safe workers 299 (by decide) (by decide) (by decide)⟩

/-- C9 as stated fails: with `count = 2^63 - 1` and the 100 workers of the source
(`block ≥ 1`), the 102nd goroutine is launched after `i += block` has wrapped around, with
`from = -9131138316486228058`; at that index the read branch is taken and `rand.Intn`
panics on a negative argument. -/
theorem C9_counterexample :
    1 ≤ workers ∧ 1 ≤ Int.tdiv maxInt workers ∧
      (∃ r ∈ launched workers maxInt 102, ∃ i, handles r i ∧ i < 0 ∧ Int.tmod i 10 ≠ 0 ∧
        ∀ g, Intn g i = none) ∧
      ¬ DrawSafe workers maxInt := by
  have hmem : ((-9131138316486228058 : Int), (-9038904596117680300 : Int))
      ∈ launched workers maxInt 102 := by decide
  refine ⟨by decide, by decide, ?_, ?_⟩
  · refine ⟨_, hmem, -9131138316486228058, by decide, by decide, by decide, ?_⟩
    intro g
    rfl
  · intro h
    have := (h 102 _ hmem (-9131138316486228058) (by decide)).1
    exact absurd this (by decide)

/-! ## Claims about a completed trial -/

/-- C3: for every `W ≥ 1` and every positive `N` that is a multiple of `W`, starting from
an empty map, a trial completes, and for every complete schedule (sequential interleaving
of the goroutines' calls) and all random draws the reported `len()` is the number of
multiples of 10 in `[0, N)`, that is `ceil(N / 10) = (N + 9) / 10`. -/
theorem C3_final_len (W N : Int) (hW : 1 ≤ W) (hN : 0 < N) (hdvd : W ∣ N)
    (hmax : N ≤ maxInt) (g : Nat → Int → Nat) :
    (∃ fuel sched t, test W rwMap.empty N fuel g sched = some t) ∧
      ∀ fuel sched t, test W rwMap.empty N fuel g sched = some t →
        t.len = (N + 9) / 10 ∧
        t.len = ((idx N.toNat 0).filter (fun x => decide (Int.tmod x 10 = 0))).length := by
  refine ⟨test_dvd_exists hW hN hdvd hmax _ g, ?_⟩
  intro fuel sched t h
  obtain ⟨_, hperm, _, hfin, hlen⟩ := test_dvd_spec hW hN hdvd hmax h
  have hspec := (final_map_spec hperm (writes_nodup _ _)).1
  rw [← hfin, ← hlen] at hspec
  refine ⟨by rw [hspec, writes_length_zero hN], ?_⟩
  rw [hspec]
  simp [writes]

/-- C3, instances: `N = 100, W = 10` gives `len() = 10`; `N = 1, W = 1` gives 1; the
constants of the source, `N = 10^6, W = 100`, give 100000. -/
theorem C3_final_len_witness :
    ((1 : Int) ≤ 10 ∧ (0 : Int) < 100 ∧ (10 : Int) ∣ 100 ∧ 100 ≤ maxInt ∧
        ∃ fuel sched t, test 10 rwMap.empty 100 fuel (fun _ _ => 7) sched = some t ∧
          t.len = 10) ∧
      (∃ fuel sched t, test 1 rwMap.empty 1 fuel (fun _ _ => 7) sched = some t ∧
          t.len = 1) ∧
      (∃ fuel sched t, test workers rwMap.empty mainCount fuel (fun _ _ => 7) sched = some t ∧
          t.len = 100000) := by
  have h1 := C3_final_len 10 100 (by decide) (by decide) (by decide) (by decide)
    (fun _ _ => 7)
  have h2 := C3_final_len 1 1 (by decide) (by decide) (by decide) (by decide)
    (fun _ _ => 7)
  have h3 := C3_final_len workers mainCount (by decide) (by decide) (by decide) (by decide)
    (fun _ _ => 7)
  obtain ⟨f1, s1, t1, e1⟩ := h1.1
  obtain ⟨f2, s2, t2, e2⟩ := h2.1
  obtain ⟨f3, s3, t3, e3⟩ := h3.1
  exact ⟨⟨by decide, by decide, by decide, by decide, f1, s1, t1, e1, (h1.2 f1 s1 t1 e1).1⟩,
    ⟨f2, s2, t2, e2, (h2.2 f2 s2 t2 e2).1⟩, ⟨f3, s3, t3, e3, (h3.2 f3 s3 t3 e3).1⟩⟩

/-- C4: in a trial with `W ≥ 1` workers and a positive multiple `N` of `W`, every
goroutine issues exactly one call per index of its range, in order: `store` on the key of
`i` when `i mod 10 = 0`, otherwise `load` on the key of some `r` with `0 ≤ r < i`.  The
trial completes, and every completed trial issues exactly `ceil(N / 10)` `store` calls,
those of the multiples of 10 in `[0, N)`, and `N - ceil(N / 10)` `load` calls. -/
theorem C4_workload_shape (W N : Int) (hW : 1 ≤ W) (hN : 0 < N) (hdvd : W ∣ N)
    (hmax : N ≤ maxInt) (g : Nat → Int → Nat) :
    (∃ fuel sched t, test W rwMap.empty N fuel g sched = some t) ∧
      ∀ fuel sched t, test W rwMap.empty N fuel g sched = some t →
        (∀ r ∈ t.ranges, ∀ gk : Int → Nat, ∃ ops, worker gk r.1 r.2 = some ops ∧
          List.Forall₂ (fun i op => handles r i ∧ iteration (gk i) i = some op ∧
              ((Int.tmod i 10 = 0 ∧ op = Op.store (pattern i)) ∨
                (Int.tmod i 10 ≠ 0 ∧ ∃ d, 0 ≤ d ∧ d < i ∧ op = Op.load (pattern d))))
            (idx (r.2 - r.1).toNat r.1) ops) ∧
        ((storeSites t.trace).length : Int) = (N + 9) / 10 ∧
        (loadCount t.trace : Int) = N - (N + 9) / 10 ∧
        ∀ k, Op.store k ∈ t.trace ↔ ∃ i, 0 ≤ i ∧ i < N ∧ Int.tmod i 10 = 0 ∧ k = pattern i := by
  refine ⟨test_dvd_exists hW hN hdvd hmax _ g, ?_⟩
  intro fuel sched t h
  obtain ⟨hb, _, _, _⟩ := dvd_facts hW hN hdvd
  obtain ⟨hrs, hperm, htl, _, _⟩ := test_dvd_spec hW hN hdvd hmax h
  have hstores : ((storeSites t.trace).length : Int) = (N + 9) / 10 := by
    rw [hperm.length_eq, writes_length_zero hN]
  refine ⟨?_, hstores, ?_, ?_⟩
  · intro r hr gk
    rw [hrs] at hr
    obtain ⟨k, _, hk⟩ := mem_blocks hr
    have hkb : (0 : Int) ≤ k * Int.tdiv N W :=
      Int.mul_nonneg (Int.ofNat_nonneg k) (by omega)
    have hr1 : 0 ≤ r.1 := by rw [hk]; simp only; omega
    refine ⟨_, worker_closed gk r.2 hr1, ?_⟩
    rw [List.forall₂_map_right_iff, List.forall₂_same]
    intro i hi
    rw [mem_idx] at hi
    have hr12 : r.1 ≤ r.2 := by rw [hk]; simp only; omega
    have hi0 : 0 ≤ i := by omega
    refine ⟨⟨hi.1, ?_⟩, iteration_nonneg gk hi0, opAt_shape gk hi0⟩
    have := hi.2
    rw [Int.toNat_of_nonneg (by omega)] at this
    omega
  · have := length_eq_stores_add_loads t.trace
    rw [htl] at this
    have hN' : ((N.toNat : Nat) : Int) = N := Int.toNat_of_nonneg (le_of_lt hN)
    omega
  · intro k
    rw [← mem_storeSites, hperm.mem_iff, mem_writes_zero hN]

/-- C4, instances: `N = 100, W = 10` gives 10 `store` and 90 `load` calls; `N = 1, W = 1`
gives one `store` and no `load`. -/
theorem C4_workload_shape_witness :
    ((1 : Int) ≤ 10 ∧ (0 : Int) < 100 ∧ (10 : Int) ∣ 100 ∧ 100 ≤ maxInt ∧
        ∃ fuel sched t, test 10 rwMap.empty 100 fuel (fun _ _ => 7) sched = some t ∧
          ((storeSites t.trace).length : Int) = 10 ∧ (loadCount t.trace : Int) = 90) ∧
      (∃ fuel sched t, test 1 rwMap.empty 1 fuel (fun _ _ => 7) sched = some t ∧
          ((storeSites t.trace).length : Int) = 1 ∧ (loadCount t.trace : Int) = 0) := by
  have h1 := C4_workload_shape 10 100 (by decide) (by decide) (by decide) (by decide)
    (fun _ _ => 7)
  have h2 := C4_workload_shape 1 1 (by decide) (by decide) (by decide) (by decide)
    (fun _ _ => 7)
  obtain ⟨f1, s1, t1, e1⟩ := h1.1
  obtain ⟨f2, s2, t2, e2⟩ := h2.1
  have r1 := h1.2 f1 s1 t1 e1
  have r2 := h2.2 f2 s2 t2 e2
  exact ⟨⟨by decide, by decide, by decide, by decide, f1, s1, t1, e1, r1.2.1, r1.2.2.1⟩,
    ⟨f2, s2, t2, e2, r2.2.1, r2.2.2.1⟩⟩

/-- C5: for every `W ≥ 1` and every positive `N` that is a multiple of `W`, starting from
an empty map, a trial completes, and after every completed trial (any complete schedule,
any random draws) `load(k)` returns a non-nil marker if and only if `k` is the key of some
index `i` of `[0, N)` with `i mod 10 = 0`; on a key that was never the target of a `store`
it returns nil. -/
theorem C5_visibility_and_absence (W N : Int) (hW : 1 ≤ W) (hN : 0 < N) (hdvd : W ∣ N)
    (hmax : N ≤ maxInt) (g : Nat → Int → Nat) :
    (∃ fuel sched t, test W rwMap.empty N fuel g sched = some t) ∧
      ∀ fuel sched t, test W rwMap.empty N fuel g sched = some t →
        (∀ k, t.final.load k ≠ none ↔
          ∃ i, 0 ≤ i ∧ i < N ∧ Int.tmod i 10 = 0 ∧ k = pattern i) ∧
        (∀ k, Op.store k ∉ t.trace → t.final.load k = none) := by
  refine ⟨test_dvd_exists hW hN hdvd hmax _ g, ?_⟩
  intro fuel sched t h
  obtain ⟨_, hperm, _, hfin, _⟩ := test_dvd_spec hW hN hdvd hmax h
  have hspec := (final_map_spec hperm (writes_nodup _ _)).2
  rw [← hfin] at hspec
  constructor
  · intro k
    rw [hspec k, mem_writes_zero hN]
  · intro k hk
    by_contra hne
    have := (hspec k).mp hne
    rw [← hperm.mem_iff, mem_storeSites] at this
    exact hk this

/-- C5, instance: a trial with `N = 100, W = 10` completes with the key of index 90
present and the keys of index 95 and of index 100 absent. -/
theorem C5_visibility_and_absence_witness :
    (1 : Int) ≤ 10 ∧ (0 : Int) < 100 ∧ (10 : Int) ∣ 100 ∧ 100 ≤ maxInt ∧
      ∃ fuel sched t, test 10 rwMap.empty 100 fuel (fun _ _ => 7) sched = some t ∧
        t.final.load (pattern 90) ≠ none ∧ t.final.load (pattern 95) = none ∧
        t.final.load (pattern 100) = none := by
  have h := C5_visibility_and_absence 10 100 (by decide) (by decide) (by decide)
    (by decide) (fun _ _ => 7)
  obtain ⟨fuel, sched, t, e⟩ := h.1
  have hh := (h.2 fuel sched t e).1
  refine ⟨by decide, by decide, by decide, by decide, fuel, sched, t, e,
    (hh _).mpr ⟨90, by decide, by decide, by decide, rfl⟩, ?_, ?_⟩
  · by_contra hne
    obtain ⟨i, _, _, h3, h4⟩ := (hh _).mp hne
    have := pattern_inj h4
    rw [← this] at h3
    exact absurd h3 (by decide)
  · by_contra hne
    obtain ⟨i, _, h2, _, h4⟩ := (hh _).mp hne
    have := pattern_inj h4
    omega

/-! ## Claims about keys -/

/-- C10: key generation is injective: for integers `i ≠ j` (in particular for distinct
non-negative indices) `fmt.Sprintf("www.site%d.example.com.ua", i)` and
`fmt.Sprintf("www.site%d.example.com.ua", j)` differ, so distinct write indices never
collide on one map entry. -/
theorem C10_pattern_injective (i j : Int) (h : i ≠ j) : pattern i ≠ pattern j :=
  fun heq => h (pattern_inj heq)

/-- C10, instance: the keys of the write indices 10 and 20 differ. -/
theorem C10_pattern_injective_witness : (10 : Int) ≠ 20 ∧ pattern 10 ≠ pattern 20 :=
  ⟨by decide, C10_pattern_injective 10 20 (by decide)⟩

end ConcurrentMapTesting
